import Mathlib

/-!
Verification of the RRDP per-server update engine (`src/rrdp/server.rs`).

The Rust source is shallowly embedded: pure functions become Lean functions,
`usize` arithmetic becomes `Nat` with an explicit bound `usizeMax`, fallible
code returns `Except`/`Option`, and the effectful parts (HTTP fetcher,
filesystem) are modelled by explicit oracle parameters or value-level models
of the data they produce.
-/

/-- The largest value of a 64-bit `usize` (the source targets 64-bit hosts). -/
def usizeMax : Nat := 2 ^ 64 - 1

/-- `usize::checked_add(1)`: `some (n + 1)` unless the sum overflows. -/
def checkedAddOne (n : Nat) : Option Nat :=
  if n + 1 ≤ usizeMax then some (n + 1) else none

/-- Embedding of `ServerState` (`server.rs`).  The external `uri::Https`,
`Uuid` and `DigestHex` values are represented by the character sequence their
`Display` implementation emits; `serial` is a `usize`, kept as `Nat`. -/
structure ServerState where
  notify_uri : List Char
  session : List Char
  serial : Nat
  hash : List Char
deriving DecidableEq

/-- Embedding of the consumed fields of `rpki::rrdp::NotificationFile`:
session id, serial, and the ordered delta list.  The `UriAndHash` payload of
a delta entry is never inspected by the code under verification, so it stays
a type parameter `α`. -/
structure NotificationFile (α : Type) where
  session_id : List Char
  serial : Nat
  deltas : List (Nat × α)
deriving DecidableEq

/-- The `loop` in `Server::calc_deltas` (`server.rs:218-236`): repeatedly look
at the first remaining delta; error if there is none or its serial is past
`serial`; stop when it equals `serial`; otherwise drop it. -/
def calcDeltasLoop {α : Type} (serial : Nat) : List (Nat × α) → Except Unit (List (Nat × α))
  | [] => Except.error ()
  | first :: rest =>
    if first.1 > serial then Except.error ()
    else if first.1 = serial then Except.ok (first :: rest)
    else calcDeltasLoop serial rest

/-- Embedding of `Server::calc_deltas` (`server.rs:191-238`): session check,
no-op check, final-delta-serial check, overflow-checked successor, then the
delta-walking loop.  `Except.error ()` stands for the opaque `Error`. -/
def Server.calc_deltas {α : Type} (notify : NotificationFile α) (state : ServerState) :
    Except Unit (Option (List (Nat × α))) :=
  if notify.session_id ≠ state.session then Except.error ()
  else if notify.serial = state.serial then Except.ok none
  else if notify.deltas.getLast?.map Prod.fst ≠ some notify.serial then Except.error ()
  else
    match checkedAddOne state.serial with
    | none => Except.error ()
    | some serial =>
      match calcDeltasLoop serial notify.deltas with
      | Except.error _ => Except.error ()
      | Except.ok ds => Except.ok (some ds)

/-- The behaviour of `calc_deltas` exactly as the specification words it:
snapshot needed on session change; no-op on equal serials; snapshot needed on
an empty delta list, a final delta serial different from the notification
serial, or overflow of `state.serial + 1`; otherwise discard leading deltas
below `state.serial + 1` and accept the remainder when it starts exactly at
`state.serial + 1`. -/
def Server.calcDeltasSpec {α : Type} [DecidableEq α] (notify : NotificationFile α)
    (state : ServerState) : Except Unit (Option (List (Nat × α))) :=
  if notify.session_id ≠ state.session then Except.error ()
  else if notify.serial = state.serial then Except.ok none
  else if notify.deltas = [] ∨ notify.deltas.getLast?.map Prod.fst ≠ some notify.serial
      ∨ usizeMax < state.serial + 1 then Except.error ()
  else
    match notify.deltas.dropWhile (fun d => d.1 < state.serial + 1) with
    | [] => Except.error ()
    | first :: rest =>
      if state.serial + 1 < first.1 then Except.error ()
      else Except.ok (some (first :: rest))

theorem calcDeltasLoop_eq_dropWhile {α : Type} (serial : Nat) (l : List (Nat × α)) :
    calcDeltasLoop serial l =
      match l.dropWhile (fun d => d.1 < serial) with
      | [] => Except.error ()
      | first :: rest =>
        if serial < first.1 then Except.error () else Except.ok (first :: rest) := by
  induction l with
  | nil => rfl
  | cons first rest ih =>
    by_cases h1 : first.1 > serial
    · have hlt : ¬ first.1 < serial := by omega
      simp [calcDeltasLoop, h1, List.dropWhile_cons, hlt]
    · by_cases h2 : first.1 = serial
      · have hlt : ¬ first.1 < serial := by omega
        have hgt : ¬ serial < first.1 := by omega
        simp [calcDeltasLoop, h1, h2, List.dropWhile_cons, hlt, hgt]
      · have hlt : first.1 < serial := by omega
        simp [calcDeltasLoop, h1, h2, List.dropWhile_cons, hlt, ih]

theorem calcDeltasLoop_ok_shape {α : Type} (serial : Nat) (l : List (Nat × α))
    (ds : List (Nat × α)) (h : calcDeltasLoop serial l = Except.ok ds) :
    ds ≠ [] ∧ ds.head?.map Prod.fst = some serial ∧ ds.getLast? = l.getLast? := by
  induction l with
  | nil => simp [calcDeltasLoop] at h
  | cons first rest ih =>
    by_cases h1 : first.1 > serial
    · simp [calcDeltasLoop, h1] at h
    · by_cases h2 : first.1 = serial
      · simp only [calcDeltasLoop, if_neg h1, if_pos h2] at h
        cases h
        refine ⟨by simp, by simp [h2], rfl⟩
      · simp only [calcDeltasLoop, if_neg h1, if_neg h2] at h
        obtain ⟨hne, hhead, hlast⟩ := ih h
        refine ⟨hne, hhead, ?_⟩
        rw [hlast]
        cases rest with
        | nil => simp [calcDeltasLoop] at h
        | cons b l' => simp [List.getLast?_cons_cons]

/-- C1: `calc_deltas` behaves exactly as the specification describes: snapshot
error on session mismatch; no-op on equal serials; snapshot error on an empty
delta list, a final delta serial different from the notification serial, or
overflow of `state.serial + 1`; otherwise it discards leading deltas with
serial below `state.serial + 1` and returns the remaining slice when its
first serial is exactly `state.serial + 1`, erroring on a gap or exhaustion. -/
theorem calc_deltas_eq_spec {α : Type} [DecidableEq α] (notify : NotificationFile α)
    (state : ServerState) :
    Server.calc_deltas notify state = Server.calcDeltasSpec notify state := by
  unfold Server.calc_deltas Server.calcDeltasSpec
  by_cases h1 : notify.session_id ≠ state.session
  · simp only [if_pos h1]
  · simp only [if_neg h1]
    by_cases h2 : notify.serial = state.serial
    · simp only [if_pos h2]
    · simp only [if_neg h2]
      by_cases h3 : notify.deltas.getLast?.map Prod.fst ≠ some notify.serial
      · simp only [if_pos h3, if_pos (Or.inr (Or.inl h3))]
      · have h3eq : notify.deltas.getLast?.map Prod.fst = some notify.serial :=
          not_not.mp h3
        have hne : notify.deltas ≠ [] := by
          intro h
          rw [h] at h3eq
          simp at h3eq
        by_cases h4 : state.serial + 1 ≤ usizeMax
        · have hcond : ¬ (notify.deltas = [] ∨
              notify.deltas.getLast?.map Prod.fst ≠ some notify.serial ∨
              usizeMax < state.serial + 1) := by
            push_neg
            exact ⟨hne, h3eq, by omega⟩
          simp only [if_neg h3, if_neg hcond, checkedAddOne, if_pos h4]
          rw [calcDeltasLoop_eq_dropWhile]
          cases hdw : notify.deltas.dropWhile (fun d => d.1 < state.serial + 1) with
          | nil => rfl
          | cons first rest =>
            by_cases h5 : state.serial + 1 < first.1
            · simp only [if_pos h5]
            · simp only [if_neg h5]
        · have hcond : notify.deltas = [] ∨
              notify.deltas.getLast?.map Prod.fst ≠ some notify.serial ∨
              usizeMax < state.serial + 1 := Or.inr (Or.inr (by omega))
          simp only [if_neg h3, if_pos hcond, checkedAddOne, if_neg h4]

/-- C1 witness: `calc_deltas` and its specification agree on a concrete
notification and state. -/
theorem calc_deltas_eq_spec_witness :
    Server.calc_deltas (α := Nat) ⟨['a'], 5, [(4, 0), (5, 1)]⟩ ⟨['u'], ['a'], 3, ['h']⟩ =
      Server.calcDeltasSpec ⟨['a'], 5, [(4, 0), (5, 1)]⟩ ⟨['u'], ['a'], 3, ['h']⟩ :=
  calc_deltas_eq_spec ⟨['a'], 5, [(4, 0), (5, 1)]⟩ ⟨['u'], ['a'], 3, ['h']⟩

/-- C10: whenever `calc_deltas` returns a slice of deltas to apply, the slice
is non-empty, its first serial is `state.serial + 1`, and its last serial is
the notification's serial. -/
theorem calc_deltas_apply_shape {α : Type} (notify : NotificationFile α)
    (state : ServerState) (ds : List (Nat × α))
    (h : Server.calc_deltas notify state = Except.ok (some ds)) :
    ds ≠ [] ∧ ds.head?.map Prod.fst = some (state.serial + 1) ∧
      ds.getLast?.map Prod.fst = some notify.serial := by
  unfold Server.calc_deltas at h
  by_cases h1 : notify.session_id ≠ state.session
  · simp [if_pos h1] at h
  · simp only [if_neg h1] at h
    by_cases h2 : notify.serial = state.serial
    · simp [if_pos h2] at h
    · simp only [if_neg h2] at h
      by_cases h3 : notify.deltas.getLast?.map Prod.fst ≠ some notify.serial
      · simp [if_pos h3] at h
      · have h3eq : notify.deltas.getLast?.map Prod.fst = some notify.serial :=
          not_not.mp h3
        simp only [if_neg h3] at h
        cases hca : checkedAddOne state.serial with
        | none =>
          simp only [hca] at h
          exact Except.noConfusion h
        | some serial =>
          have hser : serial = state.serial + 1 := by
            unfold checkedAddOne at hca
            by_cases hle : state.serial + 1 ≤ usizeMax
            · rw [if_pos hle] at hca; exact (Option.some.inj hca).symm
            · rw [if_neg hle] at hca; cases hca
          simp only [hca] at h
          cases hloop : calcDeltasLoop serial notify.deltas with
          | error e =>
            simp only [hloop] at h
            exact Except.noConfusion h
          | ok l =>
            simp only [hloop, Except.ok.injEq, Option.some.injEq] at h
            subst h
            obtain ⟨hne, hhead, hlast⟩ := calcDeltasLoop_ok_shape serial _ _ hloop
            refine ⟨hne, hser ▸ hhead, ?_⟩
            rw [hlast]
            exact h3eq

deriving instance DecidableEq for Except

/-- C10 witness: a concrete run where two deltas are returned. -/
theorem calc_deltas_apply_shape_witness :
    [((4 : Nat), (0 : Nat)), (5, 1)] ≠ [] ∧
      ([((4 : Nat), (0 : Nat)), (5, 1)].head?.map Prod.fst = some (3 + 1)) ∧
      [((4 : Nat), (0 : Nat)), (5, 1)].getLast?.map Prod.fst = some 5 :=
  calc_deltas_apply_shape ⟨['a'], 5, [(4, 0), (5, 1)]⟩ ⟨['u'], ['a'], 3, ['h']⟩
    [(4, 0), (5, 1)] (by decide)

/-! ## Server flags, update, load_file, remove_unused -/

/-- The two atomic flags of a `Server`.  The mutex-protected sequential runs
of the flag transitions are modelled by ordinary sequential function calls. -/
structure ServerFlags where
  updated : Bool
  broken : Bool
deriving DecidableEq

/-- `Server::new` (`server.rs:63-75`): both flags start at `broken`. -/
def Server.new (broken : Bool) : ServerFlags :=
  ⟨broken, broken⟩

/-- `Server::existing` (`server.rs:91-93`): not updated, not broken. -/
def Server.existing : ServerFlags :=
  Server.new false

/-- `Server::create` (`server.rs:103-109`): `ServerDir::create` succeeding or
failing decides `broken`. -/
def Server.create (allocOk : Bool) : ServerFlags :=
  Server.new (!allocOk)

/-- Oracle for the effects of one update attempt on an abstract filesystem
state `Disk`: what `try_update` (HTTP fetch plus delta or snapshot path) does
and whether it succeeds, what `check_broken` decides, and the effect of
`fs::remove_dir_all` on the server directory. -/
structure UpdateEnv (Disk : Type) where
  tryUpdate : Disk → Bool × Disk
  checkBroken : Disk → Bool
  removeDir : Disk → Disk

/-- Observable outcome of one `Server::update` call: the flags and disk
afterwards, the number of `try_update` runs (each uses the `HttpClient`), and
whether the filesystem was touched. -/
structure UpdateResult (Disk : Type) where
  flags : ServerFlags
  disk : Disk
  httpCalls : Nat
  fsTouched : Bool

/-- Embedding of `Server::update` (`server.rs:115-132`): fast path out when
`updated` is already set (no HTTP, no filesystem); otherwise run
`try_update`, on failure consult `check_broken` and, if it confirms
breakage, remove the server directory; finally set `updated`
unconditionally.  The double-checked lock re-read collapses in this
sequential model. -/
def Server.update {Disk : Type} (env : UpdateEnv Disk) (flags : ServerFlags)
    (disk : Disk) : UpdateResult Disk :=
  if flags.updated then ⟨flags, disk, 0, false⟩
  else
    let res := env.tryUpdate disk
    if res.1 then ⟨⟨true, flags.broken⟩, res.2, 1, true⟩
    else
      let b := env.checkBroken res.2
      ⟨⟨true, flags.broken || b⟩, if b then env.removeDir res.2 else res.2, 1, true⟩

/-- `Server::remove_unused` (`server.rs:418-424`): remove the directory and
report `true` unless the server was updated and is not broken; the flags are
not written. -/
def Server.remove_unused {Disk : Type} (env : UpdateEnv Disk) (flags : ServerFlags)
    (disk : Disk) : Bool × Disk :=
  if flags.updated && !flags.broken then (false, disk)
  else (true, env.removeDir disk)

theorem update_flags_updated {Disk : Type} (env : UpdateEnv Disk) (flags : ServerFlags)
    (disk : Disk) : (Server.update env flags disk).flags.updated = true := by
  unfold Server.update
  by_cases hu : flags.updated
  · simp [hu]
  · by_cases ht : (env.tryUpdate disk).1 <;> simp [hu, ht]

/-- C2: `update` is idempotent.  After one call the `updated` flag is true;
a second call returns through the fast path, leaving flags and on-disk state
exactly as after the first call, with no `HttpClient` use and no filesystem
access. -/
theorem update_idempotent {Disk : Type} (env : UpdateEnv Disk) (flags : ServerFlags)
    (disk : Disk) :
    (Server.update env (Server.update env flags disk).flags
        (Server.update env flags disk).disk).flags = (Server.update env flags disk).flags ∧
    (Server.update env (Server.update env flags disk).flags
        (Server.update env flags disk).disk).disk = (Server.update env flags disk).disk ∧
    (Server.update env flags disk).flags.updated = true ∧
    (Server.update env (Server.update env flags disk).flags
        (Server.update env flags disk).disk).httpCalls = 0 ∧
    (Server.update env (Server.update env flags disk).flags
        (Server.update env flags disk).disk).fsTouched = false := by
  have h1 := update_flags_updated env flags disk
  refine ⟨?_, ?_, h1, ?_, ?_⟩ <;>
    · conv_lhs => rw [Server.update]
      simp [h1]

/-- Flag states reachable through the public constructors and operations.
`new` covers `Server::existing` (`broken = false`) and both outcomes of
`Server::create`; an `update` step may run against any effect oracle.
`load_file` and `remove_unused` never write the flags, so they add no
transitions. -/
inductive ReachableFlags : ServerFlags → Prop where
  | new (broken : Bool) : ReachableFlags (Server.new broken)
  | update {Disk : Type} {f : ServerFlags} (env : UpdateEnv Disk) (disk : Disk) :
      ReachableFlags f → ReachableFlags (Server.update env f disk).flags

/-- C4: in every reachable flag state, `broken` implies `updated`. -/
theorem reachable_broken_implies_updated (f : ServerFlags) (h : ReachableFlags f) :
    f.broken = true → f.updated = true := by
  induction h with
  | new b =>
    intro hb
    simpa [Server.new] using hb
  | update env disk _ _ =>
    intro _
    exact update_flags_updated _ _ _

/-- C4 witness: the broken-constructed server (`create` with a failed
directory allocation) starts with both flags set, satisfying the invariant. -/
theorem reachable_broken_implies_updated_witness : (Server.new true).updated = true :=
  reachable_broken_implies_updated (Server.new true) (ReachableFlags.new true) (by decide)

/-! ## load_file -/

/-- Outcome of opening and reading the file at `uri_path(uri)`: missing, an
open failure of another kind, a read failure, or the complete contents. -/
inductive FileOutcome (β : Type) where
  | notFound
  | openError
  | readError
  | contents (data : β)
deriving DecidableEq

/-- Embedding of `Server::load_file` (`server.rs:383-413`): fail when the
`broken` flag is set; otherwise a missing file and any other open or read
failure all degrade to `none`, and success returns the bytes. -/
def Server.load_file {β : Type} (broken : Bool) (file : FileOutcome β) :
    Except Unit (Option β) :=
  if broken then Except.error ()
  else
    match file with
    | .notFound => Except.ok none
    | .openError => Except.ok none
    | .readError => Except.ok none
    | .contents data => Except.ok (some data)

/-- C3: `load_file` errors exactly when the `broken` flag is set; otherwise a
missing file and any other open or read failure yield `Ok none`, and success
yields `Ok (some bytes)` — no I/O error reaches the caller. -/
theorem load_file_spec {β : Type} (broken : Bool) (file : FileOutcome β) :
    (Server.load_file broken file = Except.error () ↔ broken = true) ∧
    (broken = false →
      Server.load_file broken file =
        Except.ok (match file with | .contents data => some data | _ => none)) := by
  cases broken <;> cases file <;> simp [Server.load_file]

/-- C3 witness: the broken server rejects a read; an intact server returns
the contents. -/
theorem load_file_spec_witness :
    (Server.load_file true (FileOutcome.contents (0 : Nat)) = Except.error () ↔ true = true) ∧
    (true = false →
      Server.load_file true (FileOutcome.contents (0 : Nat)) =
        Except.ok (match FileOutcome.contents (0 : Nat) with
          | .contents data => some data | _ => none)) :=
  load_file_spec true (FileOutcome.contents 0)

/-! ## snapshot_update and move_from_tmp -/

/-- The filesystem actions `snapshot_update` and `move_from_tmp` perform, in
program order. -/
inductive FsAction where
  | createTmpDir (ok : Bool)
  | snapshotIntoTmp (ok : Bool)
  | removeLiveStateFile
  | renameStateFile (ok : Bool)
  | removeLiveDataDir
  | renameDataDir (ok : Bool)
  | removeTmpBase
deriving DecidableEq

/-- Embedding of `Server::move_from_tmp` (`server.rs:291-325`): best-effort
removal of the live state file, rename of the state file, best-effort removal
of the live data tree, rename of the data tree, then unconditional removal of
the temporary base directory; the result is an error iff either rename
failed.  The two flags are the outcomes of the two `fs::rename` calls. -/
def Server.move_from_tmp (stateRenameOk dataRenameOk : Bool) :
    Except Unit Unit × List FsAction :=
  (if !stateRenameOk || !dataRenameOk then Except.error () else Except.ok (),
   [FsAction.removeLiveStateFile, FsAction.renameStateFile stateRenameOk,
    FsAction.removeLiveDataDir, FsAction.renameDataDir dataRenameOk,
    FsAction.removeTmpBase])

/-- Embedding of `Server::snapshot_into_tmp` (`server.rs:274-288`): snapshot
fetch, digest of the temporary tree, state save into the temporary
directory; the first failure wins. -/
def Server.snapshot_into_tmp (fetchOk digestOk saveOk : Bool) : Except Unit Unit :=
  if !fetchOk then Except.error ()
  else if !digestOk then Except.error ()
  else if !saveOk then Except.error ()
  else Except.ok ()

/-- Embedding of `Server::snapshot_update` (`server.rs:260-272`): create a
fresh temporary directory (failure → error), fill it via
`snapshot_into_tmp` (failure → remove the temporary directory, error), then
promote it with `move_from_tmp`. -/
def Server.snapshot_update
    (createTmpOk fetchOk digestOk saveOk stateRenameOk dataRenameOk : Bool) :
    Except Unit Unit × List FsAction :=
  if !createTmpOk then (Except.error (), [FsAction.createTmpDir false])
  else
    match Server.snapshot_into_tmp fetchOk digestOk saveOk with
    | Except.error _ =>
      (Except.error (), [FsAction.createTmpDir true,
        FsAction.snapshotIntoTmp false, FsAction.removeTmpBase])
    | Except.ok _ =>
      ((Server.move_from_tmp stateRenameOk dataRenameOk).1,
        FsAction.createTmpDir true :: FsAction.snapshotIntoTmp true ::
          (Server.move_from_tmp stateRenameOk dataRenameOk).2)

/-- C9: `snapshot_update` returns an error on every failure path, and
whenever the temporary directory was created it is removed again — on
failure paths and on success alike; within `move_from_tmp`, failure of
either rename yields an error and the temporary base directory is removed
whether the renames succeed or fail. -/
theorem snapshot_update_cleanup
    (createTmpOk fetchOk digestOk saveOk stateRenameOk dataRenameOk : Bool) :
    ((Server.snapshot_update createTmpOk fetchOk digestOk saveOk
        stateRenameOk dataRenameOk).1 = Except.error () ↔
      ¬(createTmpOk = true ∧ fetchOk = true ∧ digestOk = true ∧ saveOk = true ∧
        stateRenameOk = true ∧ dataRenameOk = true)) ∧
    (createTmpOk = true →
      FsAction.removeTmpBase ∈ (Server.snapshot_update createTmpOk fetchOk digestOk
        saveOk stateRenameOk dataRenameOk).2) ∧
    ((Server.move_from_tmp stateRenameOk dataRenameOk).1 = Except.error () ↔
      (stateRenameOk = false ∨ dataRenameOk = false)) ∧
    FsAction.removeTmpBase ∈ (Server.move_from_tmp stateRenameOk dataRenameOk).2 := by
  cases createTmpOk <;> cases fetchOk <;> cases digestOk <;> cases saveOk <;>
    cases stateRenameOk <;> cases dataRenameOk <;> decide

/-- C9 witness: the run where the data-directory rename fails errors out and
still removes the temporary directory. -/
theorem snapshot_update_cleanup_witness :
    ((Server.snapshot_update true true true true true false).1 = Except.error () ↔
      ¬(true = true ∧ true = true ∧ true = true ∧ true = true ∧
        true = true ∧ false = true)) ∧
    (true = true →
      FsAction.removeTmpBase ∈ (Server.snapshot_update true true true true true false).2) ∧
    ((Server.move_from_tmp true false).1 = Except.error () ↔
      (true = false ∨ false = false)) ∧
    FsAction.removeTmpBase ∈ (Server.move_from_tmp true false).2 :=
  snapshot_update_cleanup true true true true true false

/-! ## ServerState persistence -/

/-- Model of `char::is_whitespace` on the ASCII range relevant here. -/
def isWs (c : Char) : Bool :=
  c = ' ' || c = '\t' || c = '\r' || c = '\n'

def splitWsAux : List Char → List Char → List (List Char)
  | [], acc => if acc = [] then [] else [acc.reverse]
  | c :: rest, acc =>
    if isWs c then
      if acc = [] then splitWsAux rest []
      else acc.reverse :: splitWsAux rest []
    else splitWsAux rest (c :: acc)

/-- Model of `str::split_whitespace` collected into a list: maximal runs of
non-whitespace characters, with no empty tokens. -/
def splitWs (l : List Char) : List (List Char) :=
  splitWsAux l []

/-- Strip one trailing `'\r'` (the CRLF handling of `BufRead::lines`). -/
def stripCr (l : List Char) : List Char :=
  if l.getLast? = some '\r' then l.dropLast else l

def rustLinesAux : List Char → List Char → List (List Char)
  | [], acc => if acc = [] then [] else [acc.reverse]
  | c :: rest, acc =>
    if c = '\n' then stripCr acc.reverse :: rustLinesAux rest []
    else rustLinesAux rest (c :: acc)

/-- Model of `BufRead::lines` collected into a list: split at `'\n'`,
dropping the terminator and a preceding `'\r'`; a trailing `'\n'` produces no
final empty line; a last line without `'\n'` is returned as read. -/
def rustLines (content : List Char) : List (List Char) :=
  rustLinesAux content []

/-- The `io::ErrorKind` values `ServerState::_load` can produce. -/
inductive LoadErrorKind where
  | unexpectedEof
  | invalidData
deriving DecidableEq

/-- Embedding of `process_line` (`server.rs:625-654`): take the next line
(EOF error if exhausted), split it on whitespace, demand the expected key,
then exactly one further token, and parse that token (parse failure is
`InvalidData`, missing pieces are `UnexpectedEof`). -/
def process_line {γ : Type} (parse : List Char → Option γ) (ekey : List Char)
    (lines : List (List Char)) : Except LoadErrorKind (γ × List (List Char)) :=
  match lines with
  | [] => Except.error LoadErrorKind.unexpectedEof
  | line :: rest =>
    match splitWs line with
    | [] => Except.error LoadErrorKind.unexpectedEof
    | key :: toks =>
      if key ≠ ekey then Except.error LoadErrorKind.invalidData
      else
        match toks with
        | [] => Except.error LoadErrorKind.unexpectedEof
        | value :: extra =>
          if extra ≠ [] then Except.error LoadErrorKind.invalidData
          else
            match parse value with
            | some v => Except.ok (v, rest)
            | none => Except.error LoadErrorKind.invalidData

def keyNotifyUri : List Char := "notify-uri:".toList
def keySession : List Char := "session:".toList
def keySerial : List Char := "serial:".toList
def keyHash : List Char := "hash:".toList

/-- The line-level core of `ServerState::_load` (`server.rs:588-603`): four
`process_line` calls in the fixed key order, then a check that no line
remains.  The `FromStr` implementations of the external `uri::Https`,
`Uuid`, `usize` and `DigestHex` types are passed in as the parse functions
`pu`, `ps`, `pn`, `ph`. -/
def ServerState.loadLines (pu ps : List Char → Option (List Char))
    (pn : List Char → Option Nat) (ph : List Char → Option (List Char))
    (lines : List (List Char)) : Except LoadErrorKind ServerState :=
  match process_line pu keyNotifyUri lines with
  | Except.error e => Except.error e
  | Except.ok (u, lines) =>
    match process_line ps keySession lines with
    | Except.error e => Except.error e
    | Except.ok (se, lines) =>
      match process_line pn keySerial lines with
      | Except.error e => Except.error e
      | Except.ok (n, lines) =>
        match process_line ph keyHash lines with
        | Except.error e => Except.error e
        | Except.ok (h, lines) =>
          if lines ≠ [] then Except.error LoadErrorKind.invalidData
          else Except.ok ⟨u, se, n, h⟩

/-- Embedding of `ServerState::_load` on the contents of an existing state
file. -/
def ServerState._load (pu ps : List Char → Option (List Char))
    (pn : List Char → Option Nat) (ph : List Char → Option (List Char))
    (content : List Char) : Except LoadErrorKind ServerState :=
  ServerState.loadLines pu ps pn ph (rustLines content)

def digitChar (d : Nat) : Char := Char.ofNat (48 + d)

def natToDecGo : Nat → Nat → List Char → List Char
  | 0, _, acc => acc
  | fuel + 1, n, acc =>
    if n = 0 then acc else natToDecGo fuel (n / 10) (digitChar (n % 10) :: acc)

/-- Model of the `Display` of `usize`: decimal digits, most significant
first, no sign. -/
def natToDec (n : Nat) : List Char :=
  if n = 0 then ['0'] else natToDecGo n n []

/-- The four lines `ServerState::_save` (`server.rs:615-622`) writes, in
order. -/
def ServerState.saveLines (st : ServerState) : List (List Char) :=
  [keyNotifyUri ++ ' ' :: st.notify_uri,
   keySession ++ ' ' :: st.session,
   keySerial ++ ' ' :: natToDec st.serial,
   keyHash ++ ' ' :: st.hash]

/-- Embedding of `ServerState::_save`: the file contents `writeln!` emits,
each line terminated by `'\n'`. -/
def ServerState._save (st : ServerState) : List Char :=
  (st.saveLines.map (fun l => l ++ ['\n'])).flatten

/-- A value token as the external `Display` implementations emit it:
non-empty and free of whitespace. -/
def validToken (l : List Char) : Prop :=
  l ≠ [] ∧ ∀ c ∈ l, isWs c = false

instance (l : List Char) : Decidable (validToken l) := by
  unfold validToken; exact inferInstance

/-- A `ServerState` whose string-valued fields are well-formed tokens. -/
def ServerState.Valid (st : ServerState) : Prop :=
  validToken st.notify_uri ∧ validToken st.session ∧ validToken st.hash

instance (st : ServerState) : Decidable st.Valid := by
  unfold ServerState.Valid; exact inferInstance

theorem splitWsAux_nonws_head (l : List Char) (hl : ∀ c ∈ l, isWs c = false)
    (r : List Char) (acc : List Char) :
    splitWsAux (l ++ r) acc = splitWsAux r (l.reverse ++ acc) := by
  induction l generalizing acc with
  | nil => simp
  | cons c l' ih =>
    have hc : isWs c = false := hl c (by simp)
    have hl' : ∀ d ∈ l', isWs d = false := fun d hd => hl d (by simp [hd])
    simp only [List.cons_append, splitWsAux, hc, Bool.false_eq_true, if_false,
      List.reverse_cons, List.append_assoc, List.singleton_append]
    exact ih hl' (c :: acc)

theorem splitWs_single (t : List Char) (ht : validToken t) : splitWs t = [t] := by
  have h := splitWsAux_nonws_head t ht.2 [] []
  unfold splitWs
  rw [show t = t ++ [] by simp, h]
  simp only [splitWsAux, List.append_nil, List.reverse_eq_nil_iff]
  rw [if_neg ht.1]
  simp

theorem splitWs_key_val (k t : List Char) (hk : validToken k) (ht : validToken t) :
    splitWs (k ++ ' ' :: t) = [k, t] := by
  unfold splitWs
  rw [splitWsAux_nonws_head k hk.2 (' ' :: t) []]
  have hrev : k.reverse ++ [] ≠ [] := by
    simp only [List.append_nil, ne_eq, List.reverse_eq_nil_iff]
    exact hk.1
  simp only [splitWsAux, show isWs ' ' = true by decide, if_true, if_neg hrev]
  have := splitWs_single t ht
  unfold splitWs at this
  rw [this]
  simp

theorem rustLinesAux_newline (l : List Char) (hl : '\n' ∉ l) (r acc : List Char) :
    rustLinesAux (l ++ '\n' :: r) acc =
      stripCr (acc.reverse ++ l) :: rustLinesAux r [] := by
  induction l generalizing acc with
  | nil => simp [rustLinesAux]
  | cons c l' ih =>
    have hc : ¬ (c = '\n') := fun h => hl (by simp [h])
    have hl' : '\n' ∉ l' := fun h => hl (by simp [h])
    simp only [List.cons_append, rustLinesAux, if_neg hc, List.append_eq]
    rw [ih hl' (c :: acc)]
    simp

theorem rustLines_line (l : List Char) (hl : '\n' ∉ l) (r : List Char) :
    rustLines (l ++ '\n' :: r) = stripCr l :: rustLines r := by
  unfold rustLines
  rw [rustLinesAux_newline l hl r []]
  simp

theorem stripCr_of_last_ne (l : List Char) (h : l.getLast? ≠ some '\r') :
    stripCr l = l := by
  unfold stripCr
  rw [if_neg h]

theorem validToken_getLast_ne (t : List Char) (ht : validToken t) (c : Char)
    (hc : isWs c = true) : t.getLast? ≠ some c := by
  intro h
  obtain ⟨hne, hcl⟩ := List.mem_getLast?_eq_getLast (show c ∈ t.getLast? from h)
  have hmem : c ∈ t := hcl ▸ List.getLast_mem hne
  have := ht.2 c hmem
  rw [hc] at this
  cases this

theorem natToDecGo_append (fuel n : Nat) (acc : List Char) :
    ∃ pre, natToDecGo fuel n acc = pre ++ acc := by
  induction fuel generalizing n acc with
  | zero => exact ⟨[], rfl⟩
  | succ fuel ih =>
    by_cases hn : n = 0
    · exact ⟨[], by simp [natToDecGo, hn]⟩
    · obtain ⟨pre, hpre⟩ := ih (n / 10) (digitChar (n % 10) :: acc)
      refine ⟨pre ++ [digitChar (n % 10)], ?_⟩
      simp only [natToDecGo, if_neg hn, hpre, List.append_assoc, List.cons_append,
        List.nil_append]

theorem natToDecGo_mem (P : Char → Prop) (hP : ∀ d, d < 10 → P (digitChar d))
    (fuel n : Nat) (acc : List Char) (hacc : ∀ c ∈ acc, P c) :
    ∀ c ∈ natToDecGo fuel n acc, P c := by
  induction fuel generalizing n acc with
  | zero => exact hacc
  | succ fuel ih =>
    by_cases hn : n = 0
    · simpa [natToDecGo, hn] using hacc
    · simp only [natToDecGo, if_neg hn]
      refine ih (n / 10) _ ?_
      intro c hc
      rcases List.mem_cons.mp hc with h | h
      · exact h ▸ hP (n % 10) (Nat.mod_lt _ (by omega))
      · exact hacc c h

theorem digitChar_not_ws (d : Nat) (hd : d < 10) : isWs (digitChar d) = false := by
  interval_cases d <;> decide

theorem natToDec_valid (n : Nat) : validToken (natToDec n) := by
  unfold natToDec
  by_cases hn : n = 0
  · rw [if_pos hn]
    decide
  · rw [if_neg hn]
    constructor
    · cases n with
      | zero => exact absurd rfl hn
      | succ m =>
        simp only [natToDecGo, if_neg hn]
        obtain ⟨pre, hpre⟩ := natToDecGo_append m ((m + 1) / 10)
          (digitChar ((m + 1) % 10) :: [])
        rw [hpre]
        simp
    · exact natToDecGo_mem (fun c => isWs c = false)
        (fun d hd => digitChar_not_ws d hd) n n [] (by simp)

theorem process_line_ok_iff {γ : Type} (parse : List Char → Option γ)
    (ekey : List Char) (lines : List (List Char)) (v : γ) (rest : List (List Char)) :
    process_line parse ekey lines = Except.ok (v, rest) ↔
      ∃ line t, lines = line :: rest ∧ splitWs line = [ekey, t] ∧ parse t = some v := by
  cases lines with
  | nil => simp [process_line]
  | cons line rest' =>
    simp only [process_line]
    constructor
    · intro h
      cases hsp : splitWs line with
      | nil =>
        simp only [hsp] at h
        exact Except.noConfusion h
      | cons key toks =>
        simp only [hsp] at h
        by_cases hk : key ≠ ekey
        · rw [if_pos hk] at h
          exact Except.noConfusion h
        · rw [if_neg hk] at h
          push_neg at hk
          cases toks with
          | nil => exact Except.noConfusion h
          | cons value extra =>
            dsimp only at h
            by_cases he : extra ≠ []
            · rw [if_pos he] at h
              exact Except.noConfusion h
            · rw [if_neg he] at h
              push_neg at he
              cases hp : parse value with
              | none =>
                simp only [hp] at h
                exact Except.noConfusion h
              | some w =>
                simp only [hp, Except.ok.injEq, Prod.mk.injEq] at h
                obtain ⟨rfl, rfl⟩ := h
                exact ⟨line, value, rfl, by rw [hsp, hk, he], hp⟩
    · rintro ⟨line', t, heq, hsp', hp⟩
      obtain ⟨rfl, rfl⟩ : line' = line ∧ rest = rest' := by
        injection heq with h1 h2
        exact ⟨h1.symm, h2.symm⟩
      simp [hsp', hp]

theorem key_valid_notifyUri : validToken keyNotifyUri := by decide
theorem key_valid_session : validToken keySession := by decide
theorem key_valid_serial : validToken keySerial := by decide
theorem key_valid_hash : validToken keyHash := by decide

theorem line_no_newline (k t : List Char) (hk : validToken k) (ht : validToken t) :
    '\n' ∉ k ++ ' ' :: t := by
  intro hmem
  rcases List.mem_append.mp hmem with h | h
  · have := hk.2 _ h
    simp [isWs] at this
  · rcases List.mem_cons.mp h with h | h
    · exact absurd h.symm (by decide)
    · have := ht.2 _ h
      simp [isWs] at this

theorem line_stripCr (k t : List Char) (ht : validToken t) :
    stripCr (k ++ ' ' :: t) = k ++ ' ' :: t := by
  apply stripCr_of_last_ne
  have hne : (' ' :: t) ≠ [] := by simp
  rw [List.getLast?_append_of_ne_nil _ hne]
  cases t with
  | nil => exact absurd rfl ht.1
  | cons c l =>
    rw [List.getLast?_cons_cons]
    exact validToken_getLast_ne (c :: l) ht '\r' (by decide)

theorem rustLines_save (st : ServerState) (hv : st.Valid) :
    rustLines (ServerState._save st) = st.saveLines := by
  obtain ⟨hu, hs, hh⟩ := hv
  have hn := natToDec_valid st.serial
  have hshape : ServerState._save st =
      (keyNotifyUri ++ ' ' :: st.notify_uri) ++ '\n' ::
        ((keySession ++ ' ' :: st.session) ++ '\n' ::
          ((keySerial ++ ' ' :: natToDec st.serial) ++ '\n' ::
            ((keyHash ++ ' ' :: st.hash) ++ '\n' :: []))) := by
    simp [ServerState._save, ServerState.saveLines]
  rw [hshape, rustLines_line _ (line_no_newline _ _ key_valid_notifyUri hu) _,
    rustLines_line _ (line_no_newline _ _ key_valid_session hs) _,
    rustLines_line _ (line_no_newline _ _ key_valid_serial hn) _,
    rustLines_line _ (line_no_newline _ _ key_valid_hash hh) _,
    line_stripCr _ _ hu, line_stripCr _ _ hs, line_stripCr _ _ hn, line_stripCr _ _ hh]
  rfl

theorem loadLines_ok_iff (pu ps : List Char → Option (List Char))
    (pn : List Char → Option Nat) (ph : List Char → Option (List Char))
    (lines : List (List Char)) (st : ServerState) :
    ServerState.loadLines pu ps pn ph lines = Except.ok st ↔
      ∃ l0 l1 l2 l3 t0 t1 t2 t3,
        lines = [l0, l1, l2, l3] ∧
        splitWs l0 = [keyNotifyUri, t0] ∧ pu t0 = some st.notify_uri ∧
        splitWs l1 = [keySession, t1] ∧ ps t1 = some st.session ∧
        splitWs l2 = [keySerial, t2] ∧ pn t2 = some st.serial ∧
        splitWs l3 = [keyHash, t3] ∧ ph t3 = some st.hash := by
  constructor
  · intro h
    unfold ServerState.loadLines at h
    cases hp0 : process_line pu keyNotifyUri lines with
    | error e =>
      simp only [hp0] at h
      exact Except.noConfusion h
    | ok r0 =>
      obtain ⟨u, lines1⟩ := r0
      simp only [hp0] at h
      obtain ⟨l0, t0, hl0, hsp0, hpu⟩ := (process_line_ok_iff _ _ _ _ _).mp hp0
      cases hp1 : process_line ps keySession lines1 with
      | error e =>
        simp only [hp1] at h
        exact Except.noConfusion h
      | ok r1 =>
        obtain ⟨se, lines2⟩ := r1
        simp only [hp1] at h
        obtain ⟨l1, t1, hl1, hsp1, hps⟩ := (process_line_ok_iff _ _ _ _ _).mp hp1
        cases hp2 : process_line pn keySerial lines2 with
        | error e =>
          simp only [hp2] at h
          exact Except.noConfusion h
        | ok r2 =>
          obtain ⟨n, lines3⟩ := r2
          simp only [hp2] at h
          obtain ⟨l2, t2, hl2, hsp2, hpn⟩ := (process_line_ok_iff _ _ _ _ _).mp hp2
          cases hp3 : process_line ph keyHash lines3 with
          | error e =>
            simp only [hp3] at h
            exact Except.noConfusion h
          | ok r3 =>
            obtain ⟨hs, lines4⟩ := r3
            simp only [hp3] at h
            obtain ⟨l3, t3, hl3, hsp3, hph⟩ := (process_line_ok_iff _ _ _ _ _).mp hp3
            by_cases hrem : lines4 ≠ []
            · rw [if_pos hrem] at h
              exact Except.noConfusion h
            · rw [if_neg hrem] at h
              push_neg at hrem
              obtain rfl : (⟨u, se, n, hs⟩ : ServerState) = st := Except.ok.inj h
              refine ⟨l0, l1, l2, l3, t0, t1, t2, t3, ?_, hsp0, hpu, hsp1, hps,
                hsp2, hpn, hsp3, hph⟩
              rw [hl0, hl1, hl2, hl3, hrem]
  · rintro ⟨l0, l1, l2, l3, t0, t1, t2, t3, rfl, hsp0, hpu, hsp1, hps, hsp2, hpn,
      hsp3, hph⟩
    have h0 : process_line pu keyNotifyUri [l0, l1, l2, l3] =
        Except.ok (st.notify_uri, [l1, l2, l3]) :=
      (process_line_ok_iff _ _ _ _ _).mpr ⟨l0, t0, rfl, hsp0, hpu⟩
    have h1 : process_line ps keySession [l1, l2, l3] =
        Except.ok (st.session, [l2, l3]) :=
      (process_line_ok_iff _ _ _ _ _).mpr ⟨l1, t1, rfl, hsp1, hps⟩
    have h2 : process_line pn keySerial [l2, l3] =
        Except.ok (st.serial, [l3]) :=
      (process_line_ok_iff _ _ _ _ _).mpr ⟨l2, t2, rfl, hsp2, hpn⟩
    have h3 : process_line ph keyHash [l3] =
        Except.ok (st.hash, ([] : List (List Char))) :=
      (process_line_ok_iff _ _ _ _ _).mpr ⟨l3, t3, rfl, hsp3, hph⟩
    unfold ServerState.loadLines
    simp only [h0, h1, h2, h3]
    simp

/-- Concrete stand-in for the external `FromStr` implementations of
`uri::Https`, `Uuid` and `DigestHex` in concrete evaluations: they accept at
least every token their own `Display` emits. -/
def tokenParse (s : List Char) : Option (List Char) := some s

/-- Model of `usize::from_str`: an optional leading `'+'`, then at least one
ASCII digit, rejecting values beyond `usizeMax`. -/
def decParse (s : List Char) : Option Nat :=
  let ds := match s with
    | '+' :: rest => rest
    | _ => s
  if ds = [] then none
  else if ds.all (fun c => 48 ≤ c.toNat && c.toNat ≤ 57) then
    let v := ds.foldl (fun a c => a * 10 + (c.toNat - 48)) 0
    if v ≤ usizeMax then some v else none
  else none

/-- C6 (amended): `ServerState::_load` succeeds exactly on files of exactly
four lines whose whitespace tokenization is the expected key (in the fixed
order notify-uri, session, serial, hash) followed by exactly one value token
accepted by the corresponding parser.  In particular files with extra lines,
missing lines, a wrong key, or a wrong number of value tokens fail, while
extra whitespace around or between the tokens of a line is tolerated. -/
theorem load_ok_iff (pu ps : List Char → Option (List Char))
    (pn : List Char → Option Nat) (ph : List Char → Option (List Char))
    (content : List Char) (st : ServerState) :
    ServerState._load pu ps pn ph content = Except.ok st ↔
      ∃ l0 l1 l2 l3 t0 t1 t2 t3,
        rustLines content = [l0, l1, l2, l3] ∧
        splitWs l0 = [keyNotifyUri, t0] ∧ pu t0 = some st.notify_uri ∧
        splitWs l1 = [keySession, t1] ∧ ps t1 = some st.session ∧
        splitWs l2 = [keySerial, t2] ∧ pn t2 = some st.serial ∧
        splitWs l3 = [keyHash, t3] ∧ ph t3 = some st.hash := by
  unfold ServerState._load
  exact loadLines_ok_iff pu ps pn ph (rustLines content) st

/-- C6 counterexample to the claim as stated: a state file whose first line
carries trailing whitespace loads successfully (split_whitespace swallows
it), and a state file with missing lines fails with `UnexpectedEof`, not
`InvalidData`. -/
theorem load_trailing_ws_counterexample :
    ServerState._load tokenParse tokenParse decParse tokenParse
        ("notify-uri: u \nsession: s\nserial: 3\nhash: h\n".toList) =
      Except.ok ⟨['u'], ['s'], 3, ['h']⟩ ∧
    ServerState._load tokenParse tokenParse decParse tokenParse
        ("notify-uri: u\n".toList) =
      Except.error LoadErrorKind.unexpectedEof := by
  constructor <;> decide

/-- C5: for every valid state whose tokens re-parse to themselves (which the
external `FromStr`/`Display` pairs guarantee), save followed by load returns
the state unchanged; moreover load fails on every file that does not have
exactly four lines, and on every reordering of the four saved lines other
than the saved order itself. -/
theorem save_load_roundtrip (pu ps : List Char → Option (List Char))
    (pn : List Char → Option Nat) (ph : List Char → Option (List Char))
    (st : ServerState) (hv : st.Valid)
    (hpu : pu st.notify_uri = some st.notify_uri)
    (hps : ps st.session = some st.session)
    (hpn : pn (natToDec st.serial) = some st.serial)
    (hph : ph st.hash = some st.hash) :
    ServerState._load pu ps pn ph (ServerState._save st) = Except.ok st ∧
    (∀ content, (rustLines content).length ≠ 4 →
      ∀ st', ServerState._load pu ps pn ph content ≠ Except.ok st') ∧
    (∀ content, List.Perm (rustLines content) st.saveLines →
      rustLines content ≠ st.saveLines →
      ∀ st', ServerState._load pu ps pn ph content ≠ Except.ok st') := by
  have hL0 := splitWs_key_val keyNotifyUri st.notify_uri key_valid_notifyUri hv.1
  have hL1 := splitWs_key_val keySession st.session key_valid_session hv.2.1
  have hL2 := splitWs_key_val keySerial (natToDec st.serial) key_valid_serial
    (natToDec_valid st.serial)
  have hL3 := splitWs_key_val keyHash st.hash key_valid_hash hv.2.2
  refine ⟨?_, ?_, ?_⟩
  · unfold ServerState._load
    rw [rustLines_save st hv]
    refine (loadLines_ok_iff pu ps pn ph _ st).mpr
      ⟨_, _, _, _, st.notify_uri, st.session, natToDec st.serial, st.hash, rfl,
        hL0, hpu, hL1, hps, hL2, hpn, hL3, hph⟩
  · intro content hlen st' hok
    unfold ServerState._load at hok
    obtain ⟨l0, l1, l2, l3, _, _, _, _, hlines, _⟩ :=
      (loadLines_ok_iff pu ps pn ph _ st').mp hok
    apply hlen
    rw [hlines]
    rfl
  · intro content hperm hne st' hok
    unfold ServerState._load at hok
    obtain ⟨l0, l1, l2, l3, t0, t1, t2, t3, hlines, hsp0, _, hsp1, _, hsp2, _,
      hsp3, _⟩ := (loadLines_ok_iff pu ps pn ph _ st').mp hok
    rw [hlines] at hperm hne
    have h0 : l0 = keyNotifyUri ++ ' ' :: st.notify_uri := by
      have hm : l0 ∈ st.saveLines := hperm.subset (by simp)
      rcases by simpa [ServerState.saveLines] using hm with h | h | h | h
      · exact h
      · rw [h, hL1] at hsp0
        injection hsp0 with h1 _
        exact absurd h1 (by decide)
      · rw [h, hL2] at hsp0
        injection hsp0 with h1 _
        exact absurd h1 (by decide)
      · rw [h, hL3] at hsp0
        injection hsp0 with h1 _
        exact absurd h1 (by decide)
    rw [h0] at hperm hne
    have hperm1 : List.Perm [l1, l2, l3]
        [keySession ++ ' ' :: st.session,
         keySerial ++ ' ' :: natToDec st.serial,
         keyHash ++ ' ' :: st.hash] := hperm.cons_inv
    have h1 : l1 = keySession ++ ' ' :: st.session := by
      have hm : l1 ∈ [keySession ++ ' ' :: st.session,
          keySerial ++ ' ' :: natToDec st.serial,
          keyHash ++ ' ' :: st.hash] := hperm1.subset (by simp)
      rcases by simpa using hm with h | h | h
      · exact h
      · rw [h, hL2] at hsp1
        injection hsp1 with h1 _
        exact absurd h1 (by decide)
      · rw [h, hL3] at hsp1
        injection hsp1 with h1 _
        exact absurd h1 (by decide)
    rw [h1] at hperm1 hne
    have hperm2 : List.Perm [l2, l3]
        [keySerial ++ ' ' :: natToDec st.serial,
         keyHash ++ ' ' :: st.hash] := hperm1.cons_inv
    have h2 : l2 = keySerial ++ ' ' :: natToDec st.serial := by
      have hm : l2 ∈ [keySerial ++ ' ' :: natToDec st.serial,
          keyHash ++ ' ' :: st.hash] := hperm2.subset (by simp)
      rcases by simpa using hm with h | h
      · exact h
      · rw [h, hL3] at hsp2
        injection hsp2 with h1 _
        exact absurd h1 (by decide)
    rw [h2] at hperm2 hne
    have h3 : l3 = keyHash ++ ' ' :: st.hash := by
      have hp3 := List.perm_singleton.mp hperm2.cons_inv
      simpa using hp3
    rw [h3] at hne
    exact hne rfl

/-- C5 witness: the concrete state (u, s, 3, h) under the concrete parsers
round-trips and rejects malformed and reordered files. -/
theorem save_load_roundtrip_witness :
    ServerState._load tokenParse tokenParse decParse tokenParse
        (ServerState._save ⟨['u'], ['s'], 3, ['h']⟩) =
      Except.ok ⟨['u'], ['s'], 3, ['h']⟩ ∧
    (∀ content, (rustLines content).length ≠ 4 →
      ∀ st', ServerState._load tokenParse tokenParse decParse tokenParse content ≠
        Except.ok st') ∧
    (∀ content,
      List.Perm (rustLines content) (ServerState.mk ['u'] ['s'] 3 ['h']).saveLines →
      rustLines content ≠ (ServerState.mk ['u'] ['s'] 3 ['h']).saveLines →
      ∀ st', ServerState._load tokenParse tokenParse decParse tokenParse content ≠
        Except.ok st') :=
  save_load_roundtrip tokenParse tokenParse decParse tokenParse
    ⟨['u'], ['s'], 3, ['h']⟩ (by decide) rfl rfl (by decide) rfl

/-! ## ServerDir::_digest -/

/-- Host endianness, which determines `u64::to_ne_bytes`. -/
inductive Endian where
  | little
  | big
deriving DecidableEq

/-- `u64::to_ne_bytes(len)`: the eight bytes of `len` in host byte order. -/
def u64NeBytes (e : Endian) (n : Nat) : List Nat :=
  let le := [n % 256, n / 2 ^ 8 % 256, n / 2 ^ 16 % 256, n / 2 ^ 24 % 256,
             n / 2 ^ 32 % 256, n / 2 ^ 40 % 256, n / 2 ^ 48 % 256, n / 2 ^ 56 % 256]
  match e with
  | .little => le
  | .big => le.reverse

/-- A directory entry as the digester sees it: its name bytes and its kind.
`other` stands for every entry that is neither a regular file nor a
directory (symlinks, devices, ...).  A directory carries its contents
directly (standing in for the path the Rust code pushes). -/
inductive FsEntry : Type where
  | file (name : List Nat) (len : Nat)
  | dir (name : List Nat) (entries : List FsEntry)
  | other (name : List Nat)

def FsEntry.name : FsEntry → List Nat
  | .file n _ => n
  | .dir n _ => n
  | .other n => n

/-- The `(file_name, Ok(path) | Err(len))` pairs `_digest` pushes into its
`entries` vector while iterating one directory (`server.rs:520-531`):
directories keep their contents, regular files their byte length, all other
entry kinds are skipped. -/
def collectEntries (es : List FsEntry) :
    List (List Nat × (List FsEntry ⊕ Nat)) :=
  es.filterMap fun en =>
    match en with
    | .file n len => some (n, Sum.inr len)
    | .dir n sub => some (n, Sum.inl sub)
    | .other _ => none

/-- Select the directory payload of a collected pair (the `Ok(path)` case). -/
def subdirOf (p : List Nat × (List FsEntry ⊕ Nat)) : Option (List FsEntry) :=
  match p.2 with
  | Sum.inl sub => some sub
  | Sum.inr _ => none

instance : DecidableRel
    (fun (a b : List Nat × (List FsEntry ⊕ Nat)) => a.1 ≤ b.1) :=
  fun a b => inferInstanceAs (Decidable (a.1 ≤ b.1))

instance : IsTotal (List Nat × (List FsEntry ⊕ Nat))
    (fun a b => a.1 ≤ b.1) :=
  ⟨fun a b => le_total a.1 b.1⟩

instance : IsTrans (List Nat × (List FsEntry ⊕ Nat))
    (fun a b => a.1 ≤ b.1) :=
  ⟨fun _ _ _ h1 h2 => le_trans h1 h2⟩

/-- `entries.sort_by(|l, r| l.0.cmp(&r.0))` (`server.rs:532`): stable sort by
the byte-lexicographic order of the names. -/
def sortEntries (l : List (List Nat × (List FsEntry ⊕ Nat))) :
    List (List Nat × (List FsEntry ⊕ Nat)) :=
  List.insertionSort (fun a b => a.1 ≤ b.1) l

/-- The bytes one sorted entry feeds into the digest context
(`server.rs:534-541`): the name bytes, and for a regular file additionally
the length as `u64::to_ne_bytes`. -/
def emitEntry (e : Endian) : List Nat × (List FsEntry ⊕ Nat) → List Nat
  | (n, Sum.inr len) => n ++ u64NeBytes e len
  | (n, Sum.inl _) => n

theorem sizeOf_list_append {α : Type} [SizeOf α] (l₁ l₂ : List α) :
    sizeOf (l₁ ++ l₂) + 1 = sizeOf l₁ + sizeOf l₂ := by
  induction l₁ with
  | nil => simp; omega
  | cons a l ih => simp only [List.cons_append, List.cons.sizeOf_spec]; omega

theorem sizeOf_list_perm {α : Type} [SizeOf α] {l₁ l₂ : List α}
    (h : List.Perm l₁ l₂) : sizeOf l₁ = sizeOf l₂ := by
  induction h with
  | nil => rfl
  | cons a _ ih => simp only [List.cons.sizeOf_spec]; omega
  | swap x y l => simp only [List.cons.sizeOf_spec]; omega
  | trans _ _ ih1 ih2 => omega

theorem sizeOf_list_reverse {α : Type} [SizeOf α] (l : List α) :
    sizeOf l.reverse = sizeOf l :=
  sizeOf_list_perm (List.reverse_perm l)

theorem sizeOf_collect_subdirs (es : List FsEntry) :
    sizeOf ((collectEntries es).filterMap subdirOf) ≤ sizeOf es := by
  induction es with
  | nil => simp [collectEntries]
  | cons en es ih =>
    cases en with
    | file n len =>
      have hc : collectEntries (FsEntry.file n len :: es) =
          (n, Sum.inr len) :: collectEntries es := rfl
      rw [hc, List.filterMap_cons]
      simp only [subdirOf, List.cons.sizeOf_spec]
      omega
    | dir n sub =>
      have hc : collectEntries (FsEntry.dir n sub :: es) =
          (n, Sum.inl sub) :: collectEntries es := rfl
      rw [hc, List.filterMap_cons]
      simp only [subdirOf, List.cons.sizeOf_spec, FsEntry.dir.sizeOf_spec]
      omega
    | other n =>
      have hc : collectEntries (FsEntry.other n :: es) = collectEntries es := rfl
      rw [hc]
      simp only [List.cons.sizeOf_spec]
      omega

theorem sizeOf_sorted_subdirs (es : List FsEntry) :
    sizeOf (((sortEntries (collectEntries es)).filterMap subdirOf).reverse) ≤
      sizeOf es := by
  rw [sizeOf_list_reverse]
  have hperm : List.Perm
      ((sortEntries (collectEntries es)).filterMap subdirOf)
      ((collectEntries es).filterMap subdirOf) :=
    (List.perm_insertionSort _ _).filterMap _
  rw [sizeOf_list_perm hperm]
  exact sizeOf_collect_subdirs es

/-- Embedding of the loop of `ServerDir::_digest` (`server.rs:494-544`) as
the byte stream fed to the SHA-256 context; the digest is SHA-256 of this
stream, so equal streams give equal digests and different streams are what a
digest difference means.  The stack holds directory contents, topmost first
(the Rust code pops from the back of its `dirs` vector; this list is that
vector reversed, so the subdirectories of the processed directory end up
stacked in reverse sorted order, exactly as the sorted-order pushes leave
them). -/
def digestLoop (e : Endian) (stack : List (List FsEntry)) : List Nat :=
  match stack with
  | [] => []
  | es :: rest =>
    ((sortEntries (collectEntries es)).map (emitEntry e)).flatten ++
      digestLoop e
        (((sortEntries (collectEntries es)).filterMap subdirOf).reverse ++ rest)
termination_by sizeOf stack
decreasing_by
  have h1 := sizeOf_sorted_subdirs es
  have h2 := sizeOf_list_append
    (((sortEntries (collectEntries es)).filterMap subdirOf).reverse) rest
  simp only [List.cons.sizeOf_spec]
  omega

/-- `ServerDir::_digest` applied to the tree under the `data` directory,
viewed as the byte stream hashed by SHA-256. -/
def ServerDir.digestStream (e : Endian) (root : List FsEntry) : List Nat :=
  digestLoop e [root]

mutual
/-- Two views of the same on-disk entry under different readdir enumeration
orders: files and other entries are identical; a directory keeps its name
and holds the same entries, enumerated in a possibly different order,
recursively. -/
inductive EntryReorder : FsEntry → FsEntry → Prop where
  | file (n : List Nat) (len : Nat) : EntryReorder (.file n len) (.file n len)
  | other (n : List Nat) : EntryReorder (.other n) (.other n)
  | dir (n : List Nat) {es mid es' : List FsEntry} :
      EntriesReorder es mid → List.Perm mid es' →
      EntryReorder (.dir n es) (.dir n es')

/-- Pointwise `EntryReorder` between two directory contents. -/
inductive EntriesReorder : List FsEntry → List FsEntry → Prop where
  | nil : EntriesReorder [] []
  | cons {a b : FsEntry} {l₁ l₂ : List FsEntry} :
      EntryReorder a b → EntriesReorder l₁ l₂ →
      EntriesReorder (a :: l₁) (b :: l₂)
end

/-- Two enumeration views of the same directory content: a pointwise reorder
of the entries composed with a permutation of their order. -/
def DirReorder (es es' : List FsEntry) : Prop :=
  ∃ mid, EntriesReorder es mid ∧ List.Perm mid es'

mutual
/-- Well-formedness of an entry: inside every directory the entry names are
distinct, as they are in a real filesystem directory. -/
inductive EntryWf : FsEntry → Prop where
  | file (n : List Nat) (len : Nat) : EntryWf (.file n len)
  | other (n : List Nat) : EntryWf (.other n)
  | dir (n : List Nat) {es : List FsEntry} :
      (es.map FsEntry.name).Nodup → EntriesWf es → EntryWf (.dir n es)

/-- All entries of a list are well-formed. -/
inductive EntriesWf : List FsEntry → Prop where
  | nil : EntriesWf []
  | cons {a : FsEntry} {l : List FsEntry} :
      EntryWf a → EntriesWf l → EntriesWf (a :: l)
end

/-- A well-formed directory content: distinct names, recursively
well-formed. -/
def DirWf (es : List FsEntry) : Prop :=
  (es.map FsEntry.name).Nodup ∧ EntriesWf es

/-- Relation between the collected pairs of two enumeration views of the
same directory: equal names, and equal lengths for files or recursively
reordered contents for directories. -/
def payloadReorder : (List FsEntry ⊕ Nat) → (List FsEntry ⊕ Nat) → Prop
  | Sum.inl sub, Sum.inl sub' => DirReorder sub sub'
  | Sum.inr len, Sum.inr len' => len = len'
  | _, _ => False

def pairReorder (a b : List Nat × (List FsEntry ⊕ Nat)) : Prop :=
  a.1 = b.1 ∧ payloadReorder a.2 b.2

theorem collect_forall₂ {es mid : List FsEntry} (h : EntriesReorder es mid) :
    List.Forall₂ pairReorder (collectEntries es) (collectEntries mid) := by
  induction es generalizing mid with
  | nil =>
    cases h
    exact List.Forall₂.nil
  | cons a l ih =>
    cases h with
    | cons hab hl =>
      cases hab with
      | file n len =>
        exact List.Forall₂.cons ⟨rfl, rfl⟩ (ih hl)
      | other n =>
        rename_i l₂
        exact show List.Forall₂ pairReorder (collectEntries l) (collectEntries l₂)
          from ih hl
      | dir n hsub hperm =>
        exact List.Forall₂.cons ⟨rfl, ⟨_, hsub, hperm⟩⟩ (ih hl)

theorem forall₂_keys_eq {A B : List (List Nat × (List FsEntry ⊕ Nat))}
    (h : List.Forall₂ pairReorder A B) : A.map Prod.fst = B.map Prod.fst := by
  induction h with
  | nil => rfl
  | cons hab _ ih => simp only [List.map_cons, ih, hab.1]

theorem perm_forall₂_transport {α β : Type} {R : α → β → Prop}
    {A A' : List α} {C : List β} (hp : List.Perm A A')
    (hf : List.Forall₂ R A' C) :
    ∃ C', List.Forall₂ R A C' ∧ List.Perm C' C := by
  induction hp generalizing C with
  | nil =>
    cases hf
    exact ⟨[], List.Forall₂.nil, List.Perm.nil⟩
  | cons x _ ih =>
    cases hf with
    | cons hxc hf' =>
      obtain ⟨C₂, h1, h2⟩ := ih hf'
      exact ⟨_ :: C₂, List.Forall₂.cons hxc h1, h2.cons _⟩
  | swap x y l =>
    cases hf with
    | cons hxc hf' =>
      cases hf' with
      | cons hyc hf'' =>
        exact ⟨_ :: _ :: _, List.Forall₂.cons hyc (List.Forall₂.cons hxc hf''),
          List.Perm.swap _ _ _⟩
  | trans _ _ ih1 ih2 =>
    obtain ⟨C₂, h1, h2⟩ := ih2 hf
    obtain ⟨C₁, h3, h4⟩ := ih1 h1
    exact ⟨C₁, h3, h4.trans h2⟩

theorem collect_keys_sublist (es : List FsEntry) :
    List.Sublist ((collectEntries es).map Prod.fst) (es.map FsEntry.name) := by
  induction es with
  | nil => simp [collectEntries]
  | cons en l ih =>
    cases en with
    | file n len => exact List.Sublist.cons₂ n ih
    | dir n sub => exact List.Sublist.cons₂ n ih
    | other n => exact List.Sublist.cons (FsEntry.other n).name ih

theorem forall₂_align {A : List (List Nat × (List FsEntry ⊕ Nat))} :
    ∀ {C B : List (List Nat × (List FsEntry ⊕ Nat))},
      List.Forall₂ pairReorder A C → List.Perm C B →
      A.map Prod.fst = B.map Prod.fst → (B.map Prod.fst).Nodup →
      List.Forall₂ pairReorder A B := by
  induction A with
  | nil =>
    intro C B h1 h2 hk _
    cases h1
    have hB : B = [] := List.Perm.eq_nil h2.symm
    subst hB
    exact List.Forall₂.nil
  | cons a A' ih =>
    intro C B h1 h2 hk hnd
    cases h1 with
    | cons hac h1' =>
      rename_i c C'
      cases B with
      | nil => simp at hk
      | cons b B' =>
        simp only [List.map_cons] at hk hnd
        injection hk with hk1 hk2
        rw [List.nodup_cons] at hnd
        obtain ⟨hb_notin, hndB'⟩ := hnd
        have hceqb : c = b := by
          by_contra hcb
          have hcB : c ∈ b :: B' := h2.subset (List.mem_cons_self _ _)
          have hcB' : c ∈ B' := by
            rcases List.mem_cons.mp hcB with h | h
            · exact absurd h hcb
            · exact h
          have hmem : c.1 ∈ B'.map Prod.fst := List.mem_map_of_mem _ hcB'
          have hkey : c.1 = b.1 := by rw [← hac.1, hk1]
          rw [hkey] at hmem
          exact hb_notin hmem
        subst hceqb
        exact List.Forall₂.cons hac (ih h1' h2.cons_inv hk2 hndB')

theorem pairReorder_emit (e : Endian) {a b : List Nat × (List FsEntry ⊕ Nat)}
    (h : pairReorder a b) : emitEntry e a = emitEntry e b := by
  obtain ⟨a1, a2⟩ := a
  obtain ⟨b1, b2⟩ := b
  obtain ⟨hk, hp⟩ := h
  dsimp only at hk
  subst hk
  cases a2 with
  | inl sub =>
    cases b2 with
    | inl sub' => rfl
    | inr len => exact hp.elim
  | inr len =>
    cases b2 with
    | inl sub' => exact hp.elim
    | inr len' =>
      have hl : len = len' := hp
      subst hl
      rfl

theorem forall₂_emit_flatten (e : Endian)
    {A B : List (List Nat × (List FsEntry ⊕ Nat))}
    (h : List.Forall₂ pairReorder A B) :
    (A.map (emitEntry e)).flatten = (B.map (emitEntry e)).flatten := by
  induction h with
  | nil => rfl
  | cons hab _ ih =>
    simp only [List.map_cons, List.flatten_cons, pairReorder_emit e hab, ih]

theorem forall₂_subdirs : ∀ (A B : List (List Nat × (List FsEntry ⊕ Nat))),
    List.Forall₂ pairReorder A B →
    List.Forall₂ DirReorder (A.filterMap subdirOf) (B.filterMap subdirOf)
  | [], [], _ => List.Forall₂.nil
  | [], _ :: _, h => by cases h
  | _ :: _, [], h => by cases h
  | (a1, a2) :: A', (b1, b2) :: B', h => by
    cases h with
    | cons hab h' =>
      obtain ⟨hk, hp⟩ := hab
      rw [List.filterMap_cons, List.filterMap_cons]
      cases a2 with
      | inl sub =>
        cases b2 with
        | inl sub' =>
          simp only [subdirOf]
          exact List.Forall₂.cons hp (forall₂_subdirs A' B' h')
        | inr len => exact hp.elim
      | inr len =>
        cases b2 with
        | inl sub' => exact hp.elim
        | inr len' =>
          simp only [subdirOf]
          exact forall₂_subdirs A' B' h'

theorem entriesWf_mem : ∀ {es : List FsEntry}, EntriesWf es →
    ∀ {x : FsEntry}, x ∈ es → EntryWf x := by
  intro es
  induction es with
  | nil =>
    intro _ x hx
    cases hx
  | cons a l ih =>
    intro h x hx
    cases h with
    | cons ha hl =>
      rcases List.mem_cons.mp hx with h | h
      · exact h ▸ ha
      · exact ih hl h

theorem collect_mem_dir {es : List FsEntry} {n : List Nat} {sub : List FsEntry}
    (h : (n, Sum.inl sub) ∈ collectEntries es) : FsEntry.dir n sub ∈ es := by
  induction es with
  | nil => simp [collectEntries] at h
  | cons en l ih =>
    cases en with
    | file m len =>
      have hc : collectEntries (FsEntry.file m len :: l) =
          (m, Sum.inr len) :: collectEntries l := rfl
      rw [hc] at h
      rcases List.mem_cons.mp h with h | h
      · injection h with _ h2
        exact Sum.noConfusion h2
      · exact List.mem_cons_of_mem _ (ih h)
    | dir m sub' =>
      have hc : collectEntries (FsEntry.dir m sub' :: l) =
          (m, Sum.inl sub') :: collectEntries l := rfl
      rw [hc] at h
      rcases List.mem_cons.mp h with h | h
      · injection h with h1 h2
        injection h2 with h3
        rw [h1, h3]
        exact List.mem_cons_self _ _
      · exact List.mem_cons_of_mem _ (ih h)
    | other m =>
      have hc : collectEntries (FsEntry.other m :: l) = collectEntries l := rfl
      rw [hc] at h
      exact List.mem_cons_of_mem _ (ih h)

theorem sorted_subdirs_wf {es : List FsEntry} (hwf : DirWf es) :
    ∀ sub ∈ ((sortEntries (collectEntries es)).filterMap subdirOf).reverse,
      DirWf sub := by
  intro sub hsub
  rw [List.mem_reverse] at hsub
  obtain ⟨p, hp, hps⟩ := List.mem_filterMap.mp hsub
  have hpc : p ∈ collectEntries es := (List.perm_insertionSort _ _).subset hp
  obtain ⟨p1, p2⟩ := p
  cases p2 with
  | inl sub' =>
    have hss : sub' = sub := by simpa [subdirOf] using hps
    subst hss
    have hdir := collect_mem_dir hpc
    have hw := entriesWf_mem hwf.2 hdir
    cases hw with
    | dir _ hnd hes => exact ⟨hnd, hes⟩
  | inr len => simp [subdirOf] at hps

theorem sorted_keys_nodup {es : List FsEntry} (hnd : (es.map FsEntry.name).Nodup) :
    ((sortEntries (collectEntries es)).map Prod.fst).Nodup := by
  have h1 : ((collectEntries es).map Prod.fst).Nodup :=
    List.Sublist.nodup (collect_keys_sublist es) hnd
  have h2 : List.Perm ((sortEntries (collectEntries es)).map Prod.fst)
      ((collectEntries es).map Prod.fst) :=
    (List.perm_insertionSort _ _).map _
  exact h2.nodup_iff.mpr h1

theorem keys_sorted (l : List (List Nat × (List FsEntry ⊕ Nat))) :
    List.Sorted (fun a b => a ≤ b) ((sortEntries l).map Prod.fst) :=
  List.Pairwise.map _ (fun _ _ h => h) (List.sorted_insertionSort _ l)

theorem digestLoop_cons (e : Endian) (es : List FsEntry)
    (rest : List (List FsEntry)) :
    digestLoop e (es :: rest) =
      ((sortEntries (collectEntries es)).map (emitEntry e)).flatten ++
        digestLoop e
          (((sortEntries (collectEntries es)).filterMap subdirOf).reverse ++ rest) := by
  rw [digestLoop.eq_def]

theorem digestLoop_reorder_aux (e : Endian) :
    ∀ (n : Nat) (S S' : List (List FsEntry)), sizeOf S ≤ n →
      List.Forall₂ DirReorder S S' → (∀ d ∈ S, DirWf d) →
      digestLoop e S = digestLoop e S' := by
  intro n
  induction n with
  | zero =>
    intro S S' hsz _ _
    exfalso
    cases S with
    | nil => simp at hsz
    | cons a l =>
      simp only [List.cons.sizeOf_spec] at hsz
      omega
  | succ n ih =>
    intro S S' hsz hR hwf
    cases hR with
    | nil => rfl
    | cons hdd htl =>
      rename_i d d' rest rest'
      rw [digestLoop_cons, digestLoop_cons]
      obtain ⟨mid, hmid, hpm⟩ := hdd
      have hwf_d : DirWf d := hwf d (List.mem_cons_self _ _)
      have f1 := collect_forall₂ hmid
      obtain ⟨C', hC'f, hC'p⟩ := perm_forall₂_transport
        (show List.Perm (sortEntries (collectEntries d)) (collectEntries d) from
          List.perm_insertionSort _ _) f1
      have hmid' : List.Perm (collectEntries mid) (collectEntries d') :=
        List.Perm.filterMap _ hpm
      have hCB : List.Perm C' (sortEntries (collectEntries d')) :=
        hC'p.trans (hmid'.trans
          (show List.Perm (sortEntries (collectEntries d')) (collectEntries d') from
            List.perm_insertionSort _ _).symm)
      have hkA_nodup : ((sortEntries (collectEntries d)).map Prod.fst).Nodup :=
        sorted_keys_nodup hwf_d.1
      have hkeq : (sortEntries (collectEntries d)).map Prod.fst =
          (sortEntries (collectEntries d')).map Prod.fst := by
        have hkperm : List.Perm ((sortEntries (collectEntries d)).map Prod.fst)
            ((sortEntries (collectEntries d')).map Prod.fst) := by
          rw [forall₂_keys_eq hC'f]
          exact hCB.map _
        have hndB : ((sortEntries (collectEntries d')).map Prod.fst).Nodup :=
          hkperm.nodup_iff.mp hkA_nodup
        have hsA := (keys_sorted (collectEntries d)).lt_of_le hkA_nodup
        have hsB := (keys_sorted (collectEntries d')).lt_of_le hndB
        haveI : IsAntisymm (List Nat) (fun a b => a < b) :=
          ⟨fun _ _ h1 h2 => absurd h2 (lt_asymm h1)⟩
        exact List.eq_of_perm_of_sorted hkperm hsA hsB
      have halign : List.Forall₂ pairReorder (sortEntries (collectEntries d))
          (sortEntries (collectEntries d')) :=
        forall₂_align hC'f hCB hkeq (hkeq ▸ hkA_nodup)
      rw [forall₂_emit_flatten e halign]
      congr 1
      apply ih
      · have h1 := sizeOf_sorted_subdirs d
        have h2 := sizeOf_list_append
          (((sortEntries (collectEntries d)).filterMap subdirOf).reverse) rest
        simp only [List.cons.sizeOf_spec] at hsz
        omega
      · exact List.rel_append (List.rel_reverse (forall₂_subdirs _ _ halign)) htl
      · intro x hx
        rcases List.mem_append.mp hx with h | h
        · exact sorted_subdirs_wf hwf_d x h
        · exact hwf x (List.mem_cons_of_mem _ h)

/-- C7: on a fixed tree whose directories have distinct entry names (as on a
real filesystem), the byte stream fed to SHA-256 — and hence the digest — is
the same for every order in which the filesystem enumerates each directory's
entries: the collected entries are sorted by name before hashing and entry
kinds other than regular files and directories are ignored.  Repeated calls
agree because the stream is a function of the tree alone. -/
theorem digest_readdir_invariant (e : Endian) (root root' : List FsEntry)
    (hwf : DirWf root) (h : DirReorder root root') :
    ServerDir.digestStream e root = ServerDir.digestStream e root' := by
  apply digestLoop_reorder_aux e (sizeOf [root]) [root] [root'] le_rfl
  · exact List.Forall₂.cons h List.Forall₂.nil
  · intro x hx
    have hx' : x = root := by simpa using hx
    rw [hx']
    exact hwf

/-- C7 witness: a directory of two files enumerated in the two possible
orders digests to the same stream. -/
theorem digest_readdir_invariant_witness :
    ServerDir.digestStream Endian.little [FsEntry.file [97] 1, FsEntry.file [98] 2] =
      ServerDir.digestStream Endian.little [FsEntry.file [98] 2, FsEntry.file [97] 1] :=
  digest_readdir_invariant Endian.little _ _
    ⟨by decide,
     EntriesWf.cons (EntryWf.file [97] 1)
       (EntriesWf.cons (EntryWf.file [98] 2) EntriesWf.nil)⟩
    ⟨[FsEntry.file [97] 1, FsEntry.file [98] 2],
     EntriesReorder.cons (EntryReorder.file [97] 1)
       (EntriesReorder.cons (EntryReorder.file [98] 2) EntriesReorder.nil),
     List.Perm.swap (FsEntry.file [98] 2) (FsEntry.file [97] 1) []⟩

/-- C8 fails on the code: `_digest` feeds each file length through
`u64::to_ne_bytes`, i.e. in host byte order, so for one and the same tree
the byte stream hashed on a little-endian host differs from the one hashed
on a big-endian host — the digest is not independent of host endianness. -/
theorem digest_stream_endian_dependent :
    ServerDir.digestStream Endian.little [FsEntry.file [97] 1] ≠
      ServerDir.digestStream Endian.big [FsEntry.file [97] 1] := by
  unfold ServerDir.digestStream
  simp [digestLoop.eq_def, sortEntries, collectEntries, emitEntry, u64NeBytes,
    subdirOf, List.insertionSort]
